import Mathlib

/-!
Verification of the namio core: phonotactic name generation, quality
filtering, availability classification, and the hunt loop, shallowly
embedded from the TypeScript sources.

Modelling conventions:
* words are `List Char`; prices are exact rationals (JS numbers used by the
  code are integers in cents and small quotients, all exactly representable);
* JS 32-bit coercions (`<< 5`, `& r`, `| 0`) become explicit `toInt32`;
* `Math.random()` draws become explicit oracle arguments (a rational per
  comparison draw, a natural per `pick` index draw, or a stream of produced
  words where only the produced word matters);
* network queries become oracle answers of type `Except Unit _`: `.error`
  models a failed batch (non-success response / timeout), `.ok` a response.
-/

namespace Namio

/-! ## Data model (src/types.ts, src/domain/ids.ts) -/

inductive DomainStatus where
  | FREE
  | BUY
  | TAKEN
  | ERROR
deriving DecidableEq, Repr

structure DomainResult where
  name : String
  tld : String
  domain : String
  available : Bool
  priceUSD : Option ℚ
  market : Option String
deriving DecidableEq, Repr

structure ClassifiedDomain extends DomainResult where
  status : DomainStatus
deriving DecidableEq, Repr

/-- Embeds `classify` from src/types.ts lines 18-25:
status is FREE when `available`, else BUY when `priceUSD !== null &&
priceUSD <= maxPriceUSD`, else TAKEN. -/
def classify (result : DomainResult) (maxPriceUSD : ℚ) : ClassifiedDomain :=
  { result with
    status :=
      if result.available then .FREE
      else if (match result.priceUSD with
               | some p => decide (p ≤ maxPriceUSD)
               | none => false) then .BUY
      else .TAKEN }

/-! ## Availability client pure core (src/domain/ids.ts) -/

structure IDSMarket where
  market : String
  price : Option ℚ
  min_price : Option ℚ
  quoteType : String
deriving DecidableEq, Repr

structure IDSResult where
  isRegistered : Option Bool
  label : String
  tld : String
  czdap : Bool
  securityTrails : Bool
  markets : List IDSMarket
  etldCount : Option ℤ
deriving DecidableEq, Repr

/-- The effective price in cents of one market quote: `m.price ?? m.min_price`
(src/domain/ids.ts line 60). -/
def marketCents (m : IDSMarket) : Option ℚ :=
  m.price.orElse (fun _ => m.min_price)

structure Cheapest where
  usd : Option ℚ
  market : Option String
deriving DecidableEq, Repr

/-- One step of the `findCheapest` reduce (src/domain/ids.ts lines 55-68). -/
def findCheapestStep (best : Cheapest) (m : IDSMarket) : Cheapest :=
  match marketCents m with
  | none => best
  | some cents =>
      let dollars := cents / 100
      match best.usd with
      | none => { usd := some dollars, market := some m.market }
      | some b =>
          if dollars < b then { usd := some dollars, market := some m.market }
          else best

/-- Embeds `findCheapest` from src/domain/ids.ts lines 55-68. -/
def findCheapest (markets : List IDSMarket) : Cheapest :=
  markets.foldl findCheapestStep { usd := none, market := none }

/-- Embeds `toDomainResult` from src/domain/ids.ts lines 70-84: availability
is asserted only when `isRegistered === false && !czdap && !securityTrails`. -/
def toDomainResult (r : IDSResult) : DomainResult :=
  let available := r.isRegistered == some false && !r.czdap && !r.securityTrails
  let cheapest := findCheapest r.markets
  { name := r.label
    tld := r.tld
    domain := r.label ++ "." ++ r.tld
    available := available
    priceUSD := cheapest.usd
    market := cheapest.market }

/-! ## The rolling hash, two revisions (src/util.ts 52-59, src/domain/ids.ts 47-53) -/

/-- JS `ToInt32`: reduce an exact integer to the signed 32-bit range. -/
def toInt32 (x : ℤ) : ℤ := (x + 2 ^ 31) % 2 ^ 32 - 2 ^ 31

/-- JS `r << 5`: coerce the operand to Int32, shift, keep the low 32 bits. -/
def shiftLeft5 (r : ℤ) : ℤ := toInt32 (toInt32 r * 32)

/-- JS `x & x` (both operands coerced to Int32, bitwise AND of a value with
itself): equal to `ToInt32 x`. -/
def andSelf (x : ℤ) : ℤ := toInt32 x

/-- JS `x | 0` (Int32 coercion of `x`, bitwise OR with zero): equal to
`ToInt32 x`. -/
def orZero (x : ℤ) : ℤ := toInt32 x

/-- Embeds `idsHashCode` from src/util.ts lines 52-59: the imperative loop
`r = (r << 5) - r + cp; r &= r` over the code points, then `String(r)`. -/
def idsHashCodeLoop (name : List Char) (seed : ℤ) : String :=
  toString (name.foldl (fun r ch => andSelf (shiftLeft5 r - r + ch.toNat)) seed)

/-- Embeds `idsHashCode` from src/domain/ids.ts lines 47-53: the reduce
`(r, ch) => ((r << 5) - r + cp) | 0`, then `String(hash)`. -/
def idsHashCodeReduce (name : List Char) (seed : ℤ) : String :=
  toString (name.foldl (fun r ch => orZero (shiftLeft5 r - r + ch.toNat)) seed)

/-! ## Lemmas for the easy claims -/

theorem toInt32_bounds (x : ℤ) : -2 ^ 31 ≤ toInt32 x ∧ toInt32 x < 2 ^ 31 := by
  unfold toInt32
  constructor
  · have h := Int.emod_nonneg (x + 2 ^ 31) (by norm_num : (2 : ℤ) ^ 32 ≠ 0)
    omega
  · have h := Int.emod_lt_of_pos (x + 2 ^ 31) (by norm_num : (0 : ℤ) < 2 ^ 32)
    omega

theorem hashLoop_acc_bounds (l : List Char) (r : ℤ) (h : l ≠ []) :
    -2 ^ 31 ≤ l.foldl (fun r ch => andSelf (shiftLeft5 r - r + ch.toNat)) r ∧
    l.foldl (fun r ch => andSelf (shiftLeft5 r - r + ch.toNat)) r < 2 ^ 31 := by
  induction l generalizing r with
  | nil => exact absurd rfl h
  | cons c rest ih =>
      cases rest with
      | nil => simpa using toInt32_bounds (shiftLeft5 r - r + c.toNat)
      | cons d rest' => exact ih _ (by simp)

/-- The list of effective prices in major units (dollars) carried by the
quotes of a record, in quote order. -/
def marketDollars (ms : List IDSMarket) : List ℚ :=
  ms.filterMap (fun m => (marketCents m).map (· / 100))

theorem foldl_findCheapestStep_spec (ms : List IDSMarket) (b : Cheapest) :
    (((ms.foldl findCheapestStep b).usd = none) ↔
      (b.usd = none ∧ ∀ m ∈ ms, marketCents m = none))
    ∧ ((ms.foldl findCheapestStep b).usd = none →
        (ms.foldl findCheapestStep b).market = b.market)
    ∧ (∀ p, (ms.foldl findCheapestStep b).usd = some p →
        ((b.usd = some p ∧ (ms.foldl findCheapestStep b).market = b.market)
          ∨ ∃ m ∈ ms, marketCents m = some (100 * p)
              ∧ (ms.foldl findCheapestStep b).market = some m.market)
        ∧ (∀ q, b.usd = some q → p ≤ q)
        ∧ (∀ q ∈ marketDollars ms, p ≤ q)) := by
  induction ms generalizing b with
  | nil =>
      refine ⟨by simp, by simp, fun p hp => ⟨Or.inl ⟨hp, rfl⟩, ?_, by simp [marketDollars]⟩⟩
      intro q hq
      exact le_of_eq (Option.some.inj (hp.symm.trans hq))
  | cons m ms ih =>
      obtain ⟨busd, bmk⟩ := b
      have hfold : (m :: ms).foldl findCheapestStep ⟨busd, bmk⟩
          = ms.foldl findCheapestStep (findCheapestStep ⟨busd, bmk⟩ m) := rfl
      rcases hc : marketCents m with _ | c
      · -- quote carries no numeric price: step leaves best unchanged
        have hb : findCheapestStep ⟨busd, bmk⟩ m = ⟨busd, bmk⟩ := by
          simp [findCheapestStep, hc]
        rw [hfold, hb]
        obtain ⟨ih1, ih2, ih3⟩ := ih ⟨busd, bmk⟩
        refine ⟨?_, ih2, ?_⟩
        · rw [ih1]
          constructor
          · rintro ⟨h1, h2⟩
            refine ⟨h1, fun m' hm' => ?_⟩
            rcases List.mem_cons.mp hm' with rfl | hm'
            · exact hc
            · exact h2 m' hm'
          · rintro ⟨h1, h2⟩
            exact ⟨h1, fun m' hm' => h2 m' (List.mem_cons_of_mem _ hm')⟩
        · intro p hp
          obtain ⟨hloc, hbb, hmin⟩ := ih3 p hp
          refine ⟨?_, hbb, ?_⟩
          · rcases hloc with h | ⟨m', hm', h1, h2⟩
            · exact Or.inl h
            · exact Or.inr ⟨m', List.mem_cons_of_mem _ hm', h1, h2⟩
          · intro q hq
            apply hmin
            simpa [marketDollars, hc] using hq
      · -- quote carries a numeric price c (cents)
        have hcavail : marketDollars (m :: ms) = c / 100 :: marketDollars ms := by
          simp [marketDollars, hc]
        rcases busd with _ | bu
        · -- no best yet: the step installs this quote
          have hb : findCheapestStep ⟨none, bmk⟩ m
              = { usd := some (c / 100), market := some m.market } := by
            simp [findCheapestStep, hc]
          rw [hfold, hb]
          obtain ⟨ih1, ih2, ih3⟩ := ih { usd := some (c / 100), market := some m.market }
          refine ⟨?_, ?_, ?_⟩
          · rw [ih1]
            simp [hc]
          · intro hnone
            exact absurd ((ih1.mp hnone).1) (by simp)
          · intro p hp
            obtain ⟨hloc, hbb, hmin⟩ := ih3 p hp
            have hple : p ≤ c / 100 := hbb (c / 100) rfl
            refine ⟨?_, by simp, ?_⟩
            · rcases hloc with ⟨h1, h2⟩ | ⟨m', hm', h1, h2⟩
              · refine Or.inr ⟨m, List.mem_cons_self _ _, ?_, h2⟩
                rw [hc]
                have h1' : c / 100 = p := Option.some.inj h1
                rw [← h1']
                congr 1
                field_simp
              · exact Or.inr ⟨m', List.mem_cons_of_mem _ hm', h1, h2⟩
            · intro q hq
              rw [hcavail] at hq
              rcases List.mem_cons.mp hq with rfl | hq
              · exact hple
              · exact hmin q hq
        · by_cases hltq : c / 100 < bu
          · -- this quote is strictly cheaper: step installs it
            have hb : findCheapestStep ⟨some bu, bmk⟩ m
                = { usd := some (c / 100), market := some m.market } := by
              simp [findCheapestStep, hc, hltq]
            rw [hfold, hb]
            obtain ⟨ih1, ih2, ih3⟩ := ih { usd := some (c / 100), market := some m.market }
            refine ⟨?_, ?_, ?_⟩
            · rw [ih1]
              simp [hc]
            · intro hnone
              exact absurd ((ih1.mp hnone).1) (by simp)
            · intro p hp
              obtain ⟨hloc, hbb, hmin⟩ := ih3 p hp
              have hple : p ≤ c / 100 := hbb (c / 100) rfl
              refine ⟨?_, ?_, ?_⟩
              · rcases hloc with ⟨h1, h2⟩ | ⟨m', hm', h1, h2⟩
                · refine Or.inr ⟨m, List.mem_cons_self _ _, ?_, h2⟩
                  rw [hc]
                  have h1' : c / 100 = p := Option.some.inj h1
                  rw [← h1']
                  congr 1
                  field_simp
                · exact Or.inr ⟨m', List.mem_cons_of_mem _ hm', h1, h2⟩
              · intro q hq
                have hqb : bu = q := Option.some.inj hq
                exact hqb ▸ (hple.trans hltq.le)
              · intro q hq
                rw [hcavail] at hq
                rcases List.mem_cons.mp hq with rfl | hq
                · exact hple
                · exact hmin q hq
          · -- existing best is at least as cheap: step keeps it
            have hb : findCheapestStep ⟨some bu, bmk⟩ m = ⟨some bu, bmk⟩ := by
              simp [findCheapestStep, hc, hltq]
            rw [hfold, hb]
            obtain ⟨ih1, ih2, ih3⟩ := ih ⟨some bu, bmk⟩
            refine ⟨?_, ih2, ?_⟩
            · rw [ih1]
              constructor
              · rintro ⟨h1, _⟩
                exact absurd h1 (by simp)
              · rintro ⟨h1, h2⟩
                exact absurd (h2 m (List.mem_cons_self _ _)) (by simp [hc])
            · intro p hp
              obtain ⟨hloc, hbb, hmin⟩ := ih3 p hp
              have hpbu : p ≤ bu := hbb bu rfl
              refine ⟨?_, hbb, ?_⟩
              · rcases hloc with h | ⟨m', hm', h1, h2⟩
                · exact Or.inl h
                · exact Or.inr ⟨m', List.mem_cons_of_mem _ hm', h1, h2⟩
              · intro q hq
                rw [hcavail] at hq
                rcases List.mem_cons.mp hq with rfl | hq
                · exact hpbu.trans (le_of_not_lt hltq)
                · exact hmin q hq

/-! ## Quality filter (src/quality.ts, src/util.ts) -/

/-- Embeds `isVowel` from src/util.ts lines 6-7. -/
def isVowel (c : Char) : Bool :=
  c = 'a' || c = 'e' || c = 'i' || c = 'o' || c = 'u'

/-- Embeds JS `word.startsWith(b)` on char lists (word first, pattern second). -/
def listStartsWith : List Char → List Char → Bool
  | _, [] => true
  | [], _ :: _ => false
  | a :: as, b :: bs => a = b && listStartsWith as bs

/-- The fixed blacklist of awkward onsets (src/quality.ts lines 3-5). -/
def BAD_STARTS : List (List Char) :=
  [['n', 'g'], ['m', 'k'], ['z', 'z'], ['x', 'x'], ['h', 'h'], ['s', 'z'],
   ['z', 'r'], ['p', 'n'], ['g', 'n'], ['b', 'n'], ['d', 'm'], ['p', 'm'],
   ['t', 'm']]

def MAX_CONSONANT_RUN : ℕ := 2

def MAX_VOWEL_RUN : ℕ := 2

def minTransitionRatio : ℚ := 2 / 5

structure ScanState where
  cRun : ℕ
  vRun : ℕ
  prevCh : Option Char
  sameRun : ℕ
  transitions : ℕ
  failed : Bool
deriving DecidableEq, Repr

/-- src/quality.ts lines 20-27 (`prevCh: ""` becomes `none`). -/
def INITIAL_STATE : ScanState :=
  { cRun := 0, vRun := 0, prevCh := none, sameRun := 1, transitions := 0,
    failed := false }

/-- Embeds `scanChar` from src/quality.ts lines 29-47: one step of the
left-to-right pass; a failed state is frozen. -/
def scanChar (state : ScanState) (ch : Char) : ScanState :=
  if state.failed then state
  else
    { cRun := if isVowel ch then 0 else state.cRun + 1
      vRun := if isVowel ch then state.vRun + 1 else 0
      prevCh := some ch
      sameRun := if state.prevCh = some ch then state.sameRun + 1 else 1
      transitions :=
        match state.prevCh with
        | some prev =>
            if isVowel ch ≠ isVowel prev then state.transitions + 1
            else state.transitions
        | none => state.transitions
      failed :=
        decide (MAX_CONSONANT_RUN < (if isVowel ch then 0 else state.cRun + 1))
        || decide (MAX_VOWEL_RUN < (if isVowel ch then state.vRun + 1 else 0))
        || decide (2 < (if state.prevCh = some ch then state.sameRun + 1 else 1)) }

/-- Embeds `isQuality` from src/quality.ts lines 49-60 (the `final` let
binding is inlined). -/
def isQuality (word : List Char) (min max : ℕ) : Bool :=
  if word.length < min ∨ max < word.length then false
  else if word.any isVowel = false then false
  else if BAD_STARTS.any (fun b => listStartsWith word b) = true then false
  else if (word.foldl scanChar INITIAL_STATE).failed = true then false
  else if 1 < word.length ∧
      ((word.foldl scanChar INITIAL_STATE).transitions : ℚ)
        / ((word.length : ℚ) - 1) < minTransitionRatio then false
  else true

/-! ### Declarative rejection conditions (the spec side of C3) -/

/-- Does `p` hold of three consecutive characters somewhere in the word? -/
def hasTriple (p : Char → Char → Char → Bool) : List Char → Bool
  | a :: b :: c :: rest => p a b c || hasTriple p (b :: c :: rest)
  | _ => false

/-- Three identical consecutive characters. -/
def sameTriple (a b c : Char) : Bool := a = b && b = c

/-- Three consecutive consonants. -/
def consTriple (a b c : Char) : Bool := !isVowel a && !isVowel b && !isVowel c

/-- Three consecutive vowels. -/
def vowelTriple (a b c : Char) : Bool := isVowel a && isVowel b && isVowel c

def badTriple (a b c : Char) : Bool :=
  sameTriple a b c || (consTriple a b c || vowelTriple a b c)

/-- The number of vowel/consonant class changes between adjacent characters. -/
def countTransitions : List Char → ℕ
  | a :: b :: rest =>
      (if isVowel a ≠ isVowel b then 1 else 0) + countTransitions (b :: rest)
  | _ => 0

/-! ### Relating the one-pass scan to the declarative conditions -/

/-- Fires when a forbidden triple ends at the incoming character `c`, given
the previous two characters (most recent second). -/
def windowTrigger (p2 p1 : Option Char) (c : Char) : Bool :=
  match p2, p1 with
  | some a, some b => badTriple a b c
  | _, _ => false

/-- Sliding two-character-window rescan of the word. -/
def windowScan (p2 p1 : Option Char) : List Char → Bool
  | [] => false
  | c :: rest => windowTrigger p2 p1 c || windowScan p1 (some c) rest

def isConsOpt : Option Char → Prop
  | some b => isVowel b = false
  | none => False

def isVowOpt : Option Char → Prop
  | some b => isVowel b = true
  | none => False

def eqOpt : Option Char → Option Char → Prop
  | some a, some b => a = b
  | _, _ => False

/-- The scan state is consistent with having consumed a prefix whose last
two characters are `p2`, `p1` (most recent `p1`; `none` = absent). -/
def StateConsistent (s : ScanState) (p2 p1 : Option Char) : Prop :=
  s.prevCh = p1
  ∧ (1 ≤ s.cRun ↔ isConsOpt p1)
  ∧ (2 ≤ s.cRun ↔ isConsOpt p2 ∧ isConsOpt p1)
  ∧ (1 ≤ s.vRun ↔ isVowOpt p1)
  ∧ (2 ≤ s.vRun ↔ isVowOpt p2 ∧ isVowOpt p1)
  ∧ 1 ≤ s.sameRun
  ∧ (2 ≤ s.sameRun ↔ eqOpt p2 p1)

theorem eqOpt_some_right (p : Option Char) (c : Char) :
    eqOpt p (some c) ↔ p = some c := by
  cases p <;> simp [eqOpt]

theorem initial_consistent : StateConsistent INITIAL_STATE none none := by
  refine ⟨rfl, ?_, ?_, ?_, ?_, ?_⟩ <;> simp [INITIAL_STATE, isConsOpt, isVowOpt, eqOpt]

theorem scanChar_frozen (s : ScanState) (c : Char) (h : s.failed = true) :
    scanChar s c = s := by
  simp [scanChar, h]

theorem foldl_scanChar_frozen (l : List Char) (s : ScanState) (h : s.failed = true) :
    l.foldl scanChar s = s := by
  induction l with
  | nil => rfl
  | cons c rest ih => rw [List.foldl_cons, scanChar_frozen s c h, ih]

theorem scanChar_consistent (s : ScanState) (p2 p1 : Option Char) (c : Char)
    (hcon : StateConsistent s p2 p1) (hf : s.failed = false) :
    StateConsistent (scanChar s c) p1 (some c) := by
  obtain ⟨hprev, hc1, hc2, hv1, hv2, hs1, hs2⟩ := hcon
  rw [scanChar, if_neg (by simp [hf])]
  refine ⟨rfl, ?_, ?_, ?_, ?_, ?_, ?_⟩
  · by_cases hvc : isVowel c
    · simp [hvc, isConsOpt]
    · simp only [hvc]
      simp [isConsOpt, hvc]
  · by_cases hvc : isVowel c
    · simp [hvc, isConsOpt]
    · simp only [hvc, if_false, Bool.false_eq_true]
      rw [show (2 ≤ s.cRun + 1 ↔ 1 ≤ s.cRun) from by omega, hc1]
      simp [isConsOpt, hvc]
  · by_cases hvc : isVowel c
    · simp [hvc, isVowOpt]
    · simp [hvc, isVowOpt]
  · by_cases hvc : isVowel c
    · simp only [hvc, if_true]
      rw [show (2 ≤ s.vRun + 1 ↔ 1 ≤ s.vRun) from by omega, hv1]
      simp [isVowOpt, hvc]
    · simp [hvc, isVowOpt]
  · rw [hprev]
    by_cases heq : p1 = some c <;> simp [heq]
  · rw [hprev]
    by_cases heq : p1 = some c
    · rw [if_pos heq, eqOpt_some_right]
      simp [heq]
      omega
    · rw [if_neg heq, eqOpt_some_right]
      simp [heq]

set_option maxHeartbeats 1000000 in
theorem scanChar_failed_eq (s : ScanState) (p2 p1 : Option Char) (c : Char)
    (hcon : StateConsistent s p2 p1) (hf : s.failed = false) :
    (scanChar s c).failed = windowTrigger p2 p1 c := by
  obtain ⟨hprev, hc1, hc2, hv1, hv2, hs1, hs2⟩ := hcon
  rw [scanChar, if_neg (by simp [hf])]
  rw [Bool.eq_iff_iff]
  simp only [Bool.or_eq_true, decide_eq_true_eq, MAX_CONSONANT_RUN, MAX_VOWEL_RUN]
  have hcr : ∀ n : ℕ, (2 < (if isVowel c then 0 else n + 1)) ↔ (isVowel c = false ∧ 2 ≤ n) := by
    intro n
    by_cases hvc : isVowel c <;> simp [hvc] <;> omega
  have hvr : ∀ n : ℕ, (2 < (if isVowel c then n + 1 else 0)) ↔ (isVowel c = true ∧ 2 ≤ n) := by
    intro n
    by_cases hvc : isVowel c <;> simp [hvc] <;> omega
  have hsr : ∀ n : ℕ, (2 < (if s.prevCh = some c then n + 1 else 1)) ↔
      (s.prevCh = some c ∧ 2 ≤ n) := by
    intro n
    by_cases heq : s.prevCh = some c <;> simp [heq] <;> omega
  rw [hcr, hvr, hsr, hc2, hv2, hs2, hprev]
  rcases p2 with _ | a <;> rcases p1 with _ | b <;>
    simp [windowTrigger, isConsOpt, isVowOpt, eqOpt, badTriple, sameTriple,
      consTriple, vowelTriple] <;>
    tauto

theorem foldl_scanChar_failed (l : List Char) (s : ScanState) (p2 p1 : Option Char)
    (hcon : StateConsistent s p2 p1) (hf : s.failed = false) :
    (l.foldl scanChar s).failed = windowScan p2 p1 l := by
  induction l generalizing s p2 p1 with
  | nil => exact hf
  | cons c rest ih =>
      rw [List.foldl_cons, windowScan]
      have htrig := scanChar_failed_eq s p2 p1 c hcon hf
      cases hsf : (scanChar s c).failed
      · rw [ih (scanChar s c) p1 (some c) (scanChar_consistent s p2 p1 c hcon hf) hsf]
        rw [← htrig, hsf]
        simp
      · rw [foldl_scanChar_frozen rest _ hsf, hsf, ← htrig, hsf]
        simp

/-- Transition count of a word continued from an optional previous character. -/
def countTransFrom : Option Char → List Char → ℕ
  | _, [] => 0
  | p, c :: rest =>
      (match p with
       | some b => if isVowel c ≠ isVowel b then 1 else 0
       | none => 0) + countTransFrom (some c) rest

theorem countTransFrom_some (p : Char) (l : List Char) :
    countTransFrom (some p) l = countTransitions (p :: l) := by
  induction l generalizing p with
  | nil => rfl
  | cons c rest ih =>
      rw [countTransFrom, countTransitions, ih c]
      congr 1
      exact if_congr ne_comm rfl rfl

theorem countTransFrom_none (w : List Char) :
    countTransFrom none w = countTransitions w := by
  cases w with
  | nil => rfl
  | cons c rest => rw [countTransFrom, countTransFrom_some]; omega

theorem scanChar_prevCh (s : ScanState) (c : Char) (hf : s.failed = false) :
    (scanChar s c).prevCh = some c := by
  rw [scanChar, if_neg (by simp [hf])]

theorem scanChar_transitions (s : ScanState) (c : Char) (hf : s.failed = false) :
    (scanChar s c).transitions = s.transitions +
      (match s.prevCh with
       | some prev => if isVowel c ≠ isVowel prev then 1 else 0
       | none => 0) := by
  rw [scanChar, if_neg (by simp [hf])]
  rcases hp : s.prevCh with _ | prev <;> simp only
  · omega
  · by_cases hd : isVowel c ≠ isVowel prev <;> simp [hd]

theorem foldl_scanChar_transitions (l : List Char) (s : ScanState)
    (hf : s.failed = false) (hl : (l.foldl scanChar s).failed = false) :
    (l.foldl scanChar s).transitions = s.transitions + countTransFrom s.prevCh l := by
  induction l generalizing s with
  | nil => simp [countTransFrom]
  | cons c rest ih =>
      rw [List.foldl_cons] at hl ⊢
      cases hsf : (scanChar s c).failed
      · rw [ih (scanChar s c) hsf hl, scanChar_transitions s c hf,
            scanChar_prevCh s c hf]
        rcases hp : s.prevCh with _ | prev <;>
          simp only [countTransFrom] <;> omega
      · rw [foldl_scanChar_frozen rest _ hsf, hsf] at hl
        exact absurd hl (by simp)

theorem hasTriple_congr (p q : Char → Char → Char → Bool)
    (h : ∀ a b c, p a b c = q a b c) :
    ∀ l, hasTriple p l = hasTriple q l
  | [] => rfl
  | [_] => rfl
  | [_, _] => rfl
  | a :: b :: c :: rest => by
      rw [hasTriple, hasTriple, h a b c, hasTriple_congr p q h (b :: c :: rest)]

theorem hasTriple_or (p q : Char → Char → Char → Bool) :
    ∀ l, hasTriple (fun a b c => p a b c || q a b c) l
      = (hasTriple p l || hasTriple q l)
  | [] => rfl
  | [_] => rfl
  | [_, _] => rfl
  | a :: b :: c :: rest => by
      have ih := hasTriple_or p q (b :: c :: rest)
      simp only [hasTriple, ih]
      cases p a b c <;> cases q a b c <;> cases hasTriple p (b :: c :: rest) <;>
        cases hasTriple q (b :: c :: rest) <;> rfl

theorem windowScan_two (a b : Char) :
    ∀ rest, windowScan (some a) (some b) rest = hasTriple badTriple (a :: b :: rest)
  | [] => rfl
  | c :: rest' => by
      rw [windowScan, windowScan_two b c rest']
      rfl

theorem windowScan_start (w : List Char) :
    windowScan none none w = hasTriple badTriple w := by
  match w with
  | [] => rfl
  | [c] => rfl
  | c1 :: c2 :: rest =>
      rw [windowScan, windowScan, windowScan_two c1 c2 rest]
      rfl

/-- The frozen one-pass scan fails exactly when the word has a run of three
identical characters, three consonants, or three vowels. -/
theorem scan_failed_iff_triples (w : List Char) :
    (w.foldl scanChar INITIAL_STATE).failed
      = (hasTriple sameTriple w
          || (hasTriple consTriple w || hasTriple vowelTriple w)) := by
  rw [foldl_scanChar_failed w INITIAL_STATE none none initial_consistent rfl,
      windowScan_start,
      hasTriple_congr badTriple
        (fun a b c => sameTriple a b c
          || ((fun a b c => consTriple a b c || vowelTriple a b c) a b c))
        (fun a b c => rfl) w,
      hasTriple_or, hasTriple_or]

/-! ## Name generator acceptance loop (src/unnamed/part_003 lines 104-135) -/

/-- JS `s.trim().toLowerCase()` on an ASCII char list. -/
def normalizeSeed (s : List Char) : List Char :=
  (((s.dropWhile (·.isWhitespace)).reverse.dropWhile (·.isWhitespace)).reverse).map
    Char.toLower

/-- `seedWords.map((s) => s.trim().toLowerCase()).filter(Boolean)`
(src/unnamed/part_003 line 113). -/
def normalizeSeeds (seedWords : List (List Char)) : List (List Char) :=
  (seedWords.map normalizeSeed).filter (fun s => !s.isEmpty)

/-- The acceptance loop of `generateCandidates` (src/unnamed/part_003 lines
122-132). The word produced by the weighted strategy draw at each attempt is
supplied by the oracle `produce` (the strategies consume ambient
randomness, so their outputs are arbitrary); recursion is on the remaining
attempt budget. -/
def genLoop (count mn mx : ℕ) (seeds : List (List Char)) (produce : ℕ → List Char) :
    ℕ → ℕ → List (List Char) → List (List Char) →
      List (List Char) × List (List Char)
  | 0, _, candidates, seen => (candidates, seen)
  | fuel + 1, attempts, candidates, seen =>
      if count ≤ candidates.length then (candidates, seen)
      else
        let word := (produce attempts).map Char.toLower
        if isQuality word mn mx = false then
          genLoop count mn mx seeds produce fuel (attempts + 1) candidates seen
        else if word ∈ seen then
          genLoop count mn mx seeds produce fuel (attempts + 1) candidates seen
        else if word ∈ seeds then
          genLoop count mn mx seeds produce fuel (attempts + 1) candidates seen
        else
          genLoop count mn mx seeds produce fuel (attempts + 1)
            (candidates ++ [word]) (word :: seen)

/-- Embeds `generateCandidates` from src/unnamed/part_003 lines 104-135:
runs the acceptance loop for at most `count * 50` attempts starting from the
caller-supplied seen set. -/
def generateCandidates (count mn mx : ℕ) (seedWords : List (List Char))
    (seen₀ : List (List Char)) (produce : ℕ → List Char) :
    List (List Char) × List (List Char) :=
  genLoop count mn mx (normalizeSeeds seedWords) produce (count * 50) 0 [] seen₀

theorem isQuality_length (w : List Char) (mn mx : ℕ)
    (h : isQuality w mn mx = true) : mn ≤ w.length ∧ w.length ≤ mx := by
  rw [isQuality] at h
  by_cases hc : w.length < mn ∨ mx < w.length
  · rw [if_pos hc] at h
    exact absurd h (by simp)
  · omega

theorem genLoop_invariant (count mn mx : ℕ) (seeds : List (List Char))
    (produce : ℕ → List Char) :
    ∀ (fuel attempts : ℕ) (cands seen : List (List Char)),
      (cands.length ≤ count →
        (genLoop count mn mx seeds produce fuel attempts cands seen).1.length ≤ count)
      ∧ (cands.Nodup → (∀ w ∈ cands, w ∈ seen) →
          (genLoop count mn mx seeds produce fuel attempts cands seen).1.Nodup)
      ∧ ((∀ w ∈ cands, w ∈ seen) →
          ∀ w ∈ (genLoop count mn mx seeds produce fuel attempts cands seen).1,
            w ∈ cands ∨ (isQuality w mn mx = true ∧ w ∉ seeds ∧ w ∉ seen))
      ∧ (∀ w ∈ seen, w ∈ (genLoop count mn mx seeds produce fuel attempts cands seen).2)
      ∧ ((∀ w ∈ cands, w ∈ seen) →
          ∀ w ∈ (genLoop count mn mx seeds produce fuel attempts cands seen).1,
            w ∈ (genLoop count mn mx seeds produce fuel attempts cands seen).2) := by
  intro fuel
  induction fuel with
  | zero =>
      intro attempts cands seen
      exact ⟨fun h => h, fun h _ => h, fun hcs w hw => Or.inl hw, fun w hw => hw,
        fun hcs w hw => hcs w hw⟩
  | succ fuel ih =>
      intro attempts cands seen
      rw [genLoop]
      by_cases hfull : count ≤ cands.length
      · rw [if_pos hfull]
        exact ⟨fun h => h, fun h _ => h, fun hcs w hw => Or.inl hw, fun w hw => hw,
          fun hcs w hw => hcs w hw⟩
      · rw [if_neg hfull]
        simp only
        set word := (produce attempts).map Char.toLower with hword
        by_cases hq : isQuality word mn mx = false
        · rw [if_pos hq]
          exact ih (attempts + 1) cands seen
        · rw [if_neg hq]
          by_cases hseen : word ∈ seen
          · rw [if_pos hseen]
            exact ih (attempts + 1) cands seen
          · rw [if_neg hseen]
            by_cases hseed : word ∈ seeds
            · rw [if_pos hseed]
              exact ih (attempts + 1) cands seen
            · rw [if_neg hseed]
              obtain ⟨ihA, ihB, ihC, ihD, ihE⟩ :=
                ih (attempts + 1) (cands ++ [word]) (word :: seen)
              refine ⟨?_, ?_, ?_, ?_, ?_⟩
              · intro hlen
                exact ihA (by simp; omega)
              · intro hnd hcs
                refine ihB ?_ ?_
                · rw [List.nodup_append]
                  refine ⟨hnd, List.nodup_singleton word, ?_⟩
                  intro w hw hw'
                  rw [List.mem_singleton] at hw'
                  exact hseen (hw' ▸ hcs w hw)
                · intro w hw
                  rcases List.mem_append.mp hw with hw | hw
                  · exact List.mem_cons_of_mem _ (hcs w hw)
                  · rw [List.mem_singleton] at hw
                    exact hw ▸ List.mem_cons_self _ _
              · intro hcs w hw
                have hcs' : ∀ w ∈ cands ++ [word], w ∈ word :: seen := by
                  intro w hw
                  rcases List.mem_append.mp hw with hw | hw
                  · exact List.mem_cons_of_mem _ (hcs w hw)
                  · rw [List.mem_singleton] at hw
                    exact hw ▸ List.mem_cons_self _ _
                rcases ihC hcs' w hw with hw' | ⟨hq', hsd', hsn'⟩
                · rcases List.mem_append.mp hw' with hw' | hw'
                  · exact Or.inl hw'
                  · rw [List.mem_singleton] at hw'
                    subst hw'
                    exact Or.inr ⟨Bool.not_eq_false _ |>.mp hq, hseed, hseen⟩
                · exact Or.inr ⟨hq', hsd', fun hc => hsn' (List.mem_cons_of_mem _ hc)⟩
              · intro w hw
                exact ihD w (List.mem_cons_of_mem _ hw)
              · intro hcs w hw
                have hcs' : ∀ w ∈ cands ++ [word], w ∈ word :: seen := by
                  intro w hw
                  rcases List.mem_append.mp hw with hw | hw
                  · exact List.mem_cons_of_mem _ (hcs w hw)
                  · rw [List.mem_singleton] at hw
                    exact hw ▸ List.mem_cons_self _ _
                exact ihE hcs' w hw

theorem genLoop_oracle (count mn mx : ℕ) (seeds : List (List Char)) :
    ∀ (fuel attempts : ℕ) (cands seen : List (List Char))
      (produce produce' : ℕ → List Char),
      (∀ i, attempts ≤ i → i < attempts + fuel → produce i = produce' i) →
      genLoop count mn mx seeds produce fuel attempts cands seen
        = genLoop count mn mx seeds produce' fuel attempts cands seen := by
  intro fuel
  induction fuel with
  | zero => intro attempts cands seen produce produce' _; rfl
  | succ fuel ih =>
      intro attempts cands seen produce produce' hagree
      rw [genLoop, genLoop]
      by_cases hfull : count ≤ cands.length
      · rw [if_pos hfull, if_pos hfull]
      · rw [if_neg hfull, if_neg hfull]
        simp only
        have hw : produce attempts = produce' attempts :=
          hagree attempts le_rfl (by omega)
        rw [hw]
        have hrec := fun c s => ih (attempts + 1) c s produce produce'
          (fun i h1 h2 => hagree i (by omega) (by omega))
        by_cases hq : isQuality ((produce' attempts).map Char.toLower) mn mx = false
        · rw [if_pos hq, if_pos hq]
          exact hrec cands seen
        · rw [if_neg hq, if_neg hq]
          by_cases hseen : (produce' attempts).map Char.toLower ∈ seen
          · rw [if_pos hseen, if_pos hseen]
            exact hrec cands seen
          · rw [if_neg hseen, if_neg hseen]
            by_cases hseed : (produce' attempts).map Char.toLower ∈ seeds
            · rw [if_pos hseed, if_pos hseed]
              exact hrec cands seen
            · rw [if_neg hseed, if_neg hseed]
              exact hrec _ _

/-! ## Hunt loop (src/hunt.ts recursive revision; src/check.ts helpers) -/

structure DomainInfo where
  name : String
  tld : String
  available : Bool
  purchasable : Bool
  priceUSD : Option ℚ
  market : Option String
deriving DecidableEq, Repr

structure DomainRow where
  name : String
  tld : String
  domain : String
  status : DomainStatus
  priceUSD : Option ℚ
  market : Option String
deriving DecidableEq, Repr

/-- Embeds `toDomainRow` from src/check.ts lines 7-17. -/
def toDomainRow (info : DomainInfo) : DomainRow :=
  { name := info.name
    tld := info.tld
    domain := info.name ++ "." ++ info.tld
    status :=
      if info.available then .FREE
      else if info.purchasable then .BUY
      else .TAKEN
    priceUSD := info.priceUSD
    market := info.market }

def MAX_SAFE_INTEGER : ℚ := 2 ^ 53 - 1

/-- Name comparator (`a.name.localeCompare(b.name)`, abstracted to the
string order). -/
def sortByName (a b : DomainRow) : Bool := a.name ≤ b.name

/-- Price comparator from src/check.ts lines 31-32 (missing price sorts as
`Number.MAX_SAFE_INTEGER`, i.e. last). -/
def sortByPrice (a b : DomainRow) : Bool :=
  a.priceUSD.getD MAX_SAFE_INTEGER ≤ b.priceUSD.getD MAX_SAFE_INTEGER

/-- JS `[...arr].sort(cmp)` as an insertion sort with a boolean
"less-or-equal" comparator. -/
def insertSorted (le : DomainRow → DomainRow → Bool) (x : DomainRow) :
    List DomainRow → List DomainRow
  | [] => [x]
  | y :: ys => if le x y then x :: y :: ys else y :: insertSorted le x ys

def sortRows (le : DomainRow → DomainRow → Bool) (l : List DomainRow) :
    List DomainRow :=
  l.foldr (insertSorted le) []

/-- Embeds `sortDomainRows` from src/check.ts lines 37-45: FREE sorted by
name, then BUY sorted by price, then TAKEN and ERROR sorted by name. -/
def sortDomainRows (rows : List DomainRow) : List DomainRow :=
  sortRows sortByName (rows.filter (fun r => r.status = .FREE))
    ++ sortRows sortByPrice (rows.filter (fun r => r.status = .BUY))
    ++ sortRows sortByName (rows.filter (fun r => r.status = .TAKEN))
    ++ sortRows sortByName (rows.filter (fun r => r.status = .ERROR))

/-- Embeds `processHuntBatches` from src/hunt.ts lines 69-100. Each batch's
network query is replaced by its outcome, consumed in order: `.error ()` is
a failed query (non-success response, timeout, transport failure), `.ok
infos` the record values of the response map. The FREE/BUY hits of a
successful batch are appended and the accumulator truncated to `remaining`;
a failed batch leaves the accumulator unchanged and the loop moves to the
next batch. -/
def processHuntBatches (remaining : ℕ) :
    List (Except Unit (List DomainInfo)) → List DomainRow →
      List DomainRow × Bool
  | [], acc => (acc, remaining ≤ acc.length)
  | ans :: rest, acc =>
      if remaining ≤ acc.length then (acc, true)
      else
        match ans with
        | .ok infos =>
            processHuntBatches remaining rest
              ((acc ++ (infos.filter
                  (fun i => i.available || i.purchasable)).map toDomainRow).take
                remaining)
        | .error _ => processHuntBatches remaining rest acc

def GEN_BATCH : ℕ := 120

def MAX_ROUNDS : ℕ := 100

def MAX_GEN_PER_ROUND : ℕ := 500

def IDS_BATCH_SIZE : ℕ := 25

/-- Embeds `chunk` from src/util.ts lines 19-24. -/
def chunkList (xs : List (List Char)) (n : ℕ) : List (List (List Char)) :=
  if h : n = 0 ∨ xs.length = 0 then (if xs.length = 0 then [] else [xs])
  else xs.take n :: chunkList (xs.drop n) n
termination_by xs.length
decreasing_by
  push_neg at h
  simp [List.length_drop]
  omega

/-- The `processHuntBatches` call made by one round of `runRound`
(src/hunt.ts lines 122-129): the round's candidates are chunked into batches
of 25 and each batch's query outcome is taken from the oracle. -/
def roundQueryResult (count : ℕ) (genO : ℕ → List (List Char))
    (ansO : ℕ → ℕ → Except Unit (List DomainInfo)) (round : ℕ)
    (found : List DomainRow) : List DomainRow × Bool :=
  processHuntBatches (count - found.length)
    ((List.range (chunkList (genO round) IDS_BATCH_SIZE).length).map (ansO round)) []

/-- Embeds `runRound` from src/hunt.ts lines 102-143, with generation and
batch queries supplied by oracles: `genO r` is the candidate list produced
in round `r` and `ansO r b` the outcome of round `r`'s batch `b`. The fuel
argument counts the rounds still allowed (`MAX_ROUNDS + 1 - round`), so
fuel 0 is the `round > MAX_ROUNDS` exit. Pacing delays and logging have no
effect on the result and are omitted. -/
def runRound (count : ℕ) (genO : ℕ → List (List Char))
    (ansO : ℕ → ℕ → Except Unit (List DomainInfo)) :
    ℕ → ℕ → List DomainRow → List DomainRow
  | 0, _, found => found
  | roundsLeft + 1, round, found =>
      if count ≤ found.length then found
      else if (genO round).length = 0 then found
      else if (roundQueryResult count genO ansO round found).2
          ∨ count ≤ (found ++ (roundQueryResult count genO ansO round found).1).length
        then found ++ (roundQueryResult count genO ansO round found).1
      else runRound count genO ansO roundsLeft (round + 1)
        (found ++ (roundQueryResult count genO ansO round found).1)

/-- Embeds `hunt` from src/hunt.ts lines 145-154: run rounds 1..100 from an
empty hit list, then sort. -/
def hunt (count : ℕ) (genO : ℕ → List (List Char))
    (ansO : ℕ → ℕ → Except Unit (List DomainInfo)) : List DomainRow :=
  sortDomainRows (runRound count genO ansO MAX_ROUNDS 1 [])

/-! ### Lemmas about the hunt loop -/

theorem insertSorted_length (le : DomainRow → DomainRow → Bool) (x : DomainRow) :
    ∀ l : List DomainRow, (insertSorted le x l).length = l.length + 1
  | [] => rfl
  | y :: ys => by
      rw [insertSorted]
      by_cases h : le x y
      · rw [if_pos h]
        rfl
      · rw [if_neg h, List.length_cons, insertSorted_length le x ys, List.length_cons]

theorem sortRows_length (le : DomainRow → DomainRow → Bool) (l : List DomainRow) :
    (sortRows le l).length = l.length := by
  induction l with
  | nil => rfl
  | cons x xs ih =>
      rw [sortRows, List.foldr_cons, insertSorted_length]
      rw [sortRows] at ih
      rw [ih, List.length_cons]

theorem sortDomainRows_length (rows : List DomainRow) :
    (sortDomainRows rows).length = rows.length := by
  rw [sortDomainRows]
  simp only [List.length_append, sortRows_length]
  induction rows with
  | nil => simp
  | cons r rest ih =>
      rcases hs : r.status <;>
        simp [List.filter_cons, hs] <;> omega

theorem processHuntBatches_le (remaining : ℕ) :
    ∀ (answers : List (Except Unit (List DomainInfo))) (acc : List DomainRow),
      acc.length ≤ remaining →
      (processHuntBatches remaining answers acc).1.length ≤ remaining := by
  intro answers
  induction answers with
  | nil => intro acc h; exact h
  | cons ans rest ih =>
      intro acc h
      by_cases hfull : remaining ≤ acc.length
      · simp only [processHuntBatches, if_pos hfull]
        exact h
      · cases ans with
        | ok infos =>
            simp only [processHuntBatches, if_neg hfull]
            exact ih _ (by simp only [List.length_take]; omega)
        | error e =>
            simp only [processHuntBatches, if_neg hfull]
            exact ih acc h

theorem runRound_le (count : ℕ) (genO : ℕ → List (List Char))
    (ansO : ℕ → ℕ → Except Unit (List DomainInfo)) :
    ∀ (fuel round : ℕ) (found : List DomainRow),
      found.length ≤ count →
      (runRound count genO ansO fuel round found).length ≤ count := by
  intro fuel
  induction fuel with
  | zero => intro round found h; exact h
  | succ fuel ih =>
      intro round found h
      rw [runRound]
      by_cases h1 : count ≤ found.length
      · rw [if_pos h1]
        exact h
      · rw [if_neg h1]
        by_cases h2 : (genO round).length = 0
        · rw [if_pos h2]
          exact h
        · rw [if_neg h2]
          have hres : (roundQueryResult count genO ansO round found).1.length
              ≤ count - found.length :=
            processHuntBatches_le _ _ [] (by simp)
          by_cases h3 : (roundQueryResult count genO ansO round found).2
              ∨ count ≤ (found ++ (roundQueryResult count genO ansO round found).1).length
          · rw [if_pos h3]
            simp only [List.length_append]
            omega
          · rw [if_neg h3]
            exact ih (round + 1) _ (by simp only [List.length_append]; omega)

theorem runRound_stall (count : ℕ) (genO : ℕ → List (List Char))
    (ansO : ℕ → ℕ → Except Unit (List DomainInfo)) (f round : ℕ)
    (found : List DomainRow) (h1 : ¬ count ≤ found.length) (h2 : genO round = []) :
    runRound count genO ansO (f + 1) round found = found := by
  rw [runRound, if_neg h1, if_pos (by rw [h2]; rfl)]

theorem runRound_oracle (count : ℕ) :
    ∀ (fuel round : ℕ) (found : List DomainRow)
      (genO genO' : ℕ → List (List Char))
      (ansO ansO' : ℕ → ℕ → Except Unit (List DomainInfo)),
      1 ≤ round → round + fuel ≤ MAX_ROUNDS + 1 →
      (∀ r, 1 ≤ r → r ≤ MAX_ROUNDS → genO r = genO' r) →
      (∀ r b, 1 ≤ r → r ≤ MAX_ROUNDS → ansO r b = ansO' r b) →
      runRound count genO ansO fuel round found
        = runRound count genO' ansO' fuel round found := by
  intro fuel
  induction fuel with
  | zero => intro round found genO genO' ansO ansO' _ _ _ _; rfl
  | succ fuel ih =>
      intro round found genO genO' ansO ansO' hr hcap hgen hans
      have hrM : round ≤ MAX_ROUNDS := by
        rw [MAX_ROUNDS] at hcap ⊢
        omega
      have hgr : genO round = genO' round := hgen round hr hrM
      have har : ansO round = ansO' round := funext (fun b => hans round b hr hrM)
      have hq : roundQueryResult count genO ansO round found
          = roundQueryResult count genO' ansO' round found := by
        rw [roundQueryResult, roundQueryResult, hgr, har]
      rw [runRound, runRound, hgr, hq]
      by_cases h1 : count ≤ found.length
      · rw [if_pos h1, if_pos h1]
      · rw [if_neg h1, if_neg h1]
        by_cases h2 : (genO' round).length = 0
        · rw [if_pos h2, if_pos h2]
        · rw [if_neg h2, if_neg h2]
          by_cases h3 : (roundQueryResult count genO' ansO' round found).2
              ∨ count ≤ (found ++ (roundQueryResult count genO' ansO' round found).1).length
          · rw [if_pos h3, if_pos h3]
          · rw [if_neg h3, if_neg h3]
            exact ih (round + 1) _ genO genO' ansO ansO' (by omega) (by omega) hgen hans

/-! ## Generation strategies (src/generator.ts; src/unnamed/part_003) -/

/-- JS `pick(arr)` (src/util.ts lines 1-4). `Math.floor(Math.random() *
arr.length)` is a uniformly random in-range index; the draw is modelled as
an arbitrary natural taken modulo the length. The default is never used on
the nonempty inventories. -/
def pick {α : Type} (dflt : α) (arr : List α) (n : ℕ) : α :=
  arr.getD (n % arr.length) dflt

def C_ONSETS : List (List Char) :=
  [['b'], ['c'], ['d'], ['f'], ['g'], ['k'], ['l'], ['m'], ['n'], ['p'],
   ['r'], ['s'], ['t'], ['v'], ['z']]

def CC_ONSETS : List (List Char) :=
  [['b', 'r'], ['c', 'r'], ['d', 'r'], ['f', 'l'], ['f', 'r'], ['g', 'l'],
   ['g', 'r'], ['p', 'r'], ['t', 'r'], ['s', 'c'], ['s', 'p'], ['s', 't'],
   ['c', 'l']]

def V : List Char := ['a', 'e', 'i', 'o', 'u']

def C_BRIDGES : List (List Char) :=
  [['l'], ['r'], ['n'], ['m'], ['s'], ['t'], ['c'], ['v'], ['p'],
   ['l', 'l'], ['r', 'r'], ['t', 't'], ['s', 's'],
   ['n', 't'], ['n', 'c'], ['n', 'd'], ['n', 'v'],
   ['l', 't'], ['l', 'c'], ['l', 'v'],
   ['r', 't'], ['r', 'c'], ['r', 'v'], ['r', 's'], ['r', 'm'], ['r', 'n'],
   ['s', 't'], ['s', 'c'], ['s', 'p']]

def SINGLE_BRIDGES : List (List Char) :=
  C_BRIDGES.filter (fun b => b.length = 1)

def ENDINGS : List (List Char) :=
  [['a'], ['e'], ['i'], ['o'],
   ['i', 'o'], ['i', 'a'], ['e', 'o'], ['e', 'a'],
   ['a', 'l'], ['e', 'l'], ['i', 'l'], ['o', 'l'],
   ['a', 'n'], ['e', 'n'], ['o', 'n'], ['i', 'n'],
   ['a', 'r'], ['e', 'r'], ['o', 'r'],
   ['i', 's'], ['o', 's'], ['u', 's'],
   ['i', 'x'], ['e', 'x'], ['u', 'm']]

def CODAS : List Char := ['l', 'r', 'n', 's', 'x']

def SOFT_CODAS : List Char := ['l', 'r', 'n', 's']

/-- The consonant-similarity record (src/generator.ts lines 30-36) as an
association list. -/
def SIMILAR_CONSONANTS_TABLE : List (Char × List (List Char)) :=
  [('b', [['p'], ['v'], ['d']]), ('c', [['k'], ['s'], ['g']]),
   ('d', [['t'], ['b'], ['g']]), ('f', [['v'], ['p'], ['s']]),
   ('g', [['k'], ['c'], ['d']]), ('k', [['c'], ['g'], ['t']]),
   ('l', [['r'], ['n'], ['m']]), ('m', [['n'], ['l'], ['r']]),
   ('n', [['m'], ['l'], ['r']]), ('p', [['b'], ['t'], ['f']]),
   ('r', [['l'], ['n'], ['m']]), ('s', [['z'], ['c'], ['t']]),
   ('t', [['d'], ['p'], ['c']]), ('v', [['f'], ['b'], ['z']]),
   ('z', [['s'], ['v'], ['c']])]

/-- JS `SIMILAR_CONSONANTS[ch]` (an absent key gives `undefined`, i.e.
`none`). -/
def SIMILAR_CONSONANTS (c : Char) : Option (List (List Char)) :=
  (SIMILAR_CONSONANTS_TABLE.find? (fun p => p.1 = c)).map Prod.snd

/-- Embeds `onset` from src/generator.ts lines 45-46: a 30% chance of a
consonant-cluster onset, else a single-consonant onset. -/
def onset (r : ℚ) (i : ℕ) : List Char :=
  if r < 3 / 10 then pick ['b', 'r'] CC_ONSETS i else pick ['b'] C_ONSETS i

/-- Embeds `generateCVCV` from src/generator.ts lines 54-61: 2-3 open
syllables, the first with a possibly clustered onset, then an optional coda;
the result is the plain concatenation with no length parameter at all. -/
def generateCVCV (rCount rOnset : ℚ) (iOnset iV0 : ℕ) (iC iV : ℕ → ℕ)
    (rCoda : ℚ) (iCoda : ℕ) : List Char :=
  (((List.range (if rCount < 6 / 10 then 2 else 3)).map (fun i =>
      if i = 0 then onset rOnset iOnset ++ [pick 'a' V iV0]
      else pick ['b'] C_ONSETS (iC i) ++ [pick 'a' V (iV i)])).join)
    ++ (if rCoda < 3 / 10 then [pick 'l' CODAS iCoda] else [])

/-- Embeds `generateBridged` from src/generator.ts lines 63-71. -/
def generateBridged (rOnset : ℚ) (iOnset iV1 iBridge iV2 : ℕ) (r : ℚ)
    (iTailC iTailV iSoft : ℕ) : List Char :=
  (onset rOnset iOnset ++ [pick 'a' V iV1]
      ++ pick ['l'] C_BRIDGES iBridge ++ [pick 'a' V iV2])
    ++ (if r < 3 / 10 then pick ['b'] C_ONSETS iTailC ++ [pick 'a' V iTailV]
        else if r < 5 / 10 then [pick 'l' SOFT_CODAS iSoft]
        else [])

/-- Embeds `generateWithEnding` from src/generator.ts lines 73-80. -/
def generateWithEnding (iEnding : ℕ) (rOnset : ℚ) (iOnset iV0 : ℕ)
    (rBridge : ℚ) (iB iBV : ℕ) : List Char :=
  (onset rOnset iOnset ++ [pick 'a' V iV0])
    ++ (if rBridge < 6 / 10 then pick ['l'] SINGLE_BRIDGES iB ++ [pick 'a' V iBV]
        else [])
    ++ pick ['a'] ENDINGS iEnding

/-- Embeds `generateVowelLed` from src/generator.ts lines 82-94. -/
def generateVowelLed (rCount : ℚ) (iV0 : ℕ) (iC iV : ℕ → ℕ) (r2 : ℚ)
    (iB iBV iCoda : ℕ) : List Char :=
  ([pick 'a' V iV0]
      ++ ((List.range (if rCount < 5 / 10 then 1 else 2)).map (fun i =>
          pick ['b'] C_ONSETS (iC i) ++ [pick 'a' V (iV i)])).join)
    ++ (if r2 < 3 / 10 then pick ['l'] SINGLE_BRIDGES iB ++ [pick 'a' V iBV]
        else if r2 < 5 / 10 then [pick 'l' CODAS iCoda]
        else [])

/-- The seed substring extracted by `generateMutant` (src/generator.ts lines
96-100): a random 3-4 character slice of the chosen seed. -/
def mutantStem (seed : List Char) (n2 iStart : ℕ) : List Char :=
  ((seed.drop (iStart % (Nat.max 1 (seed.length - (3 + n2 % 2) + 1)))).take
    (3 + n2 % 2))

/-- The stem with exactly one character mutated (src/generator.ts lines
102-109): a vowel becomes a different random vowel, a consonant a similar
consonant (or any single onset when the table has no entry). -/
def mutantMutated (seed : List Char) (n2 iStart iPos iSub : ℕ) : List Char :=
  let stem := mutantStem seed n2 iStart
  let pos := iPos % Nat.max 1 stem.length
  match stem.get? pos with
  | some ch =>
      if isVowel ch then
        stem.take pos ++ [pick 'a' (V.filter (fun v => v ≠ ch)) iSub]
          ++ stem.drop (pos + 1)
      else
        stem.take pos ++ pick ['b'] ((SIMILAR_CONSONANTS ch).getD C_ONSETS) iSub
          ++ stem.drop (pos + 1)
  | none => stem

/-- Embeds `generateMutant` from src/generator.ts lines 96-113: the mutated
stem with a curated ending appended, and nothing else. -/
def generateMutant (seeds : List (List Char)) (iSeed n2 iStart iPos iSub iEnd : ℕ) :
    List Char :=
  let seed := (pick ['n'] (if seeds.length > 0 then seeds
      else [['s','i','g','n','a','l'], ['s','e','a','r','c','h'],
            ['n','a','m','e']]) iSeed).map Char.toLower
  mutantMutated seed n2 iStart iPos iSub ++ pick ['a'] ENDINGS iEnd

/-- Embeds `generateCVCV` from src/unnamed/part_003 lines 140-147 (the
earlier revision): the same syllable composition but truncated to `max` by
`.slice(0, max)`. -/
def p3_generateCVCV (rCount rOnset : ℚ) (iOnset : ℕ) (iC iV : ℕ → ℕ)
    (rCoda : ℚ) (iCoda : ℕ) (max : ℕ) : List Char :=
  ((((List.range (if rCount < 6 / 10 then 2 else 3)).map (fun i =>
        (if i = 0 then onset rOnset iOnset else pick ['b'] C_ONSETS (iC i))
          ++ [pick 'a' V (iV i)])).join)
      ++ (if rCoda < 3 / 10 then [pick 'l' CODAS iCoda] else [])).take max

/-! ### Decomposition lemmas for the strategies -/

theorem pick_mem {α : Type} (dflt : α) (arr : List α) (n : ℕ) (h : arr ≠ []) :
    pick dflt arr n ∈ arr := by
  rw [pick]
  have hl : 0 < arr.length := List.length_pos.mpr h
  have hlt : n % arr.length < arr.length := Nat.mod_lt n hl
  rw [List.getD_eq_getElem arr dflt hlt]
  exact List.getElem_mem hlt

theorem onset_mem (r : ℚ) (i : ℕ) : onset r i ∈ C_ONSETS ∨ onset r i ∈ CC_ONSETS := by
  rw [onset]
  by_cases h : r < 3 / 10
  · exact Or.inr (by rw [if_pos h]; exact pick_mem _ _ _ (by decide))
  · exact Or.inl (by rw [if_neg h]; exact pick_mem _ _ _ (by decide))

theorem generateCVCV_decomp (rCount rOnset : ℚ) (iOnset iV0 : ℕ) (iC iV : ℕ → ℕ)
    (rCoda : ℚ) (iCoda : ℕ) :
    ∃ (o : List Char) (v0 : Char) (sylls : List (List Char)) (coda : List Char),
      (o ∈ C_ONSETS ∨ o ∈ CC_ONSETS) ∧ v0 ∈ V
      ∧ (∀ s ∈ sylls, ∃ c ∈ C_ONSETS, ∃ v ∈ V, s = c ++ [v])
      ∧ (coda = [] ∨ ∃ cd ∈ CODAS, coda = [cd])
      ∧ generateCVCV rCount rOnset iOnset iV0 iC iV rCoda iCoda
          = (o ++ [v0]) ++ sylls.join ++ coda := by
  refine ⟨onset rOnset iOnset, pick 'a' V iV0,
    if rCount < 6 / 10 then [pick ['b'] C_ONSETS (iC 1) ++ [pick 'a' V (iV 1)]]
    else [pick ['b'] C_ONSETS (iC 1) ++ [pick 'a' V (iV 1)],
          pick ['b'] C_ONSETS (iC 2) ++ [pick 'a' V (iV 2)]],
    if rCoda < 3 / 10 then [pick 'l' CODAS iCoda] else [],
    onset_mem rOnset iOnset, pick_mem _ _ _ (by decide), ?_, ?_, ?_⟩
  · by_cases h : rCount < 6 / 10
    · rw [if_pos h]
      intro s hs
      rw [List.mem_singleton] at hs
      exact ⟨_, pick_mem _ _ _ (by decide), _, pick_mem _ _ _ (by decide), hs⟩
    · rw [if_neg h]
      intro s hs
      rcases List.mem_cons.mp hs with rfl | hs
      · exact ⟨_, pick_mem _ _ _ (by decide), _, pick_mem _ _ _ (by decide), rfl⟩
      · rw [List.mem_singleton] at hs
        exact ⟨_, pick_mem _ _ _ (by decide), _, pick_mem _ _ _ (by decide), hs⟩
  · by_cases h : rCoda < 3 / 10
    · rw [if_pos h]
      exact Or.inr ⟨_, pick_mem _ _ _ (by decide), rfl⟩
    · rw [if_neg h]
      exact Or.inl rfl
  · rw [generateCVCV]
    by_cases h : rCount < 6 / 10 <;> by_cases h2 : rCoda < 3 / 10 <;>
      simp [h, h2, List.range_succ, List.append_assoc]

theorem generateBridged_decomp (rOnset : ℚ) (iOnset iV1 iBridge iV2 : ℕ) (r : ℚ)
    (iTailC iTailV iSoft : ℕ) :
    ∃ (o : List Char) (v1 : Char) (br : List Char) (v2 : Char) (tail : List Char),
      (o ∈ C_ONSETS ∨ o ∈ CC_ONSETS) ∧ v1 ∈ V ∧ br ∈ C_BRIDGES ∧ v2 ∈ V
      ∧ ((∃ c ∈ C_ONSETS, ∃ v ∈ V, tail = c ++ [v])
          ∨ (∃ sc ∈ SOFT_CODAS, tail = [sc]) ∨ tail = [])
      ∧ generateBridged rOnset iOnset iV1 iBridge iV2 r iTailC iTailV iSoft
          = (o ++ [v1] ++ br ++ [v2]) ++ tail := by
  refine ⟨onset rOnset iOnset, pick 'a' V iV1, pick ['l'] C_BRIDGES iBridge,
    pick 'a' V iV2,
    if r < 3 / 10 then pick ['b'] C_ONSETS iTailC ++ [pick 'a' V iTailV]
    else if r < 5 / 10 then [pick 'l' SOFT_CODAS iSoft] else [],
    onset_mem rOnset iOnset, pick_mem _ _ _ (by decide), pick_mem _ _ _ (by decide),
    pick_mem _ _ _ (by decide), ?_, rfl⟩
  by_cases h : r < 3 / 10
  · rw [if_pos h]
    exact Or.inl ⟨_, pick_mem _ _ _ (by decide), _, pick_mem _ _ _ (by decide), rfl⟩
  · rw [if_neg h]
    by_cases h2 : r < 5 / 10
    · rw [if_pos h2]
      exact Or.inr (Or.inl ⟨_, pick_mem _ _ _ (by decide), rfl⟩)
    · rw [if_neg h2]
      exact Or.inr (Or.inr rfl)

theorem generateWithEnding_decomp (iEnding : ℕ) (rOnset : ℚ) (iOnset iV0 : ℕ)
    (rBridge : ℚ) (iB iBV : ℕ) :
    ∃ (o : List Char) (v0 : Char) (bridge : List Char) (e : List Char),
      (o ∈ C_ONSETS ∨ o ∈ CC_ONSETS) ∧ v0 ∈ V
      ∧ (bridge = [] ∨ ∃ sb ∈ SINGLE_BRIDGES, ∃ v ∈ V, bridge = sb ++ [v])
      ∧ e ∈ ENDINGS
      ∧ generateWithEnding iEnding rOnset iOnset iV0 rBridge iB iBV
          = (o ++ [v0]) ++ bridge ++ e := by
  refine ⟨onset rOnset iOnset, pick 'a' V iV0,
    if rBridge < 6 / 10 then pick ['l'] SINGLE_BRIDGES iB ++ [pick 'a' V iBV]
    else [],
    pick ['a'] ENDINGS iEnding,
    onset_mem rOnset iOnset, pick_mem _ _ _ (by decide), ?_,
    pick_mem _ _ _ (by decide), rfl⟩
  by_cases h : rBridge < 6 / 10
  · rw [if_pos h]
    exact Or.inr ⟨_, pick_mem _ _ _ (by decide), _, pick_mem _ _ _ (by decide), rfl⟩
  · rw [if_neg h]
    exact Or.inl rfl

theorem generateVowelLed_decomp (rCount : ℚ) (iV0 : ℕ) (iC iV : ℕ → ℕ) (r2 : ℚ)
    (iB iBV iCoda : ℕ) :
    ∃ (v0 : Char) (sylls : List (List Char)) (tail : List Char),
      v0 ∈ V
      ∧ (∀ s ∈ sylls, ∃ c ∈ C_ONSETS, ∃ v ∈ V, s = c ++ [v])
      ∧ ((∃ sb ∈ SINGLE_BRIDGES, ∃ v ∈ V, tail = sb ++ [v])
          ∨ (∃ cd ∈ CODAS, tail = [cd]) ∨ tail = [])
      ∧ generateVowelLed rCount iV0 iC iV r2 iB iBV iCoda
          = [v0] ++ sylls.join ++ tail := by
  refine ⟨pick 'a' V iV0,
    if rCount < 5 / 10 then [pick ['b'] C_ONSETS (iC 0) ++ [pick 'a' V (iV 0)]]
    else [pick ['b'] C_ONSETS (iC 0) ++ [pick 'a' V (iV 0)],
          pick ['b'] C_ONSETS (iC 1) ++ [pick 'a' V (iV 1)]],
    if r2 < 3 / 10 then pick ['l'] SINGLE_BRIDGES iB ++ [pick 'a' V iBV]
    else if r2 < 5 / 10 then [pick 'l' CODAS iCoda] else [],
    pick_mem _ _ _ (by decide), ?_, ?_, ?_⟩
  · by_cases h : rCount < 5 / 10
    · rw [if_pos h]
      intro s hs
      rw [List.mem_singleton] at hs
      exact ⟨_, pick_mem _ _ _ (by decide), _, pick_mem _ _ _ (by decide), hs⟩
    · rw [if_neg h]
      intro s hs
      rcases List.mem_cons.mp hs with rfl | hs
      · exact ⟨_, pick_mem _ _ _ (by decide), _, pick_mem _ _ _ (by decide), rfl⟩
      · rw [List.mem_singleton] at hs
        exact ⟨_, pick_mem _ _ _ (by decide), _, pick_mem _ _ _ (by decide), hs⟩
  · by_cases h : r2 < 3 / 10
    · rw [if_pos h]
      exact Or.inl ⟨_, pick_mem _ _ _ (by decide), _, pick_mem _ _ _ (by decide), rfl⟩
    · rw [if_neg h]
      by_cases h2 : r2 < 5 / 10
      · rw [if_pos h2]
        exact Or.inr (Or.inl ⟨_, pick_mem _ _ _ (by decide), rfl⟩)
      · rw [if_neg h2]
        exact Or.inr (Or.inr rfl)
  · rw [generateVowelLed]
    by_cases h : rCount < 5 / 10 <;> by_cases h2 : r2 < 3 / 10 <;>
      by_cases h3 : r2 < 5 / 10 <;>
      simp [h, h2, h3, List.range_succ, List.append_assoc]

theorem similar_entries (ch : Char) :
    (∀ x ∈ (SIMILAR_CONSONANTS ch).getD C_ONSETS, x.length = 1)
    ∧ (SIMILAR_CONSONANTS ch).getD C_ONSETS ≠ [] := by
  rcases h : SIMILAR_CONSONANTS ch with _ | l
  · exact ⟨by decide, by decide⟩
  · have htab : ∀ p ∈ SIMILAR_CONSONANTS_TABLE,
        (∀ x ∈ p.2, x.length = 1) ∧ p.2 ≠ [] := by decide
    rw [SIMILAR_CONSONANTS] at h
    obtain ⟨a, hfind, hsnd⟩ := Option.map_eq_some'.mp h
    obtain ⟨h1, h2⟩ := htab a (List.mem_of_find?_eq_some hfind)
    rw [Option.getD_some, ← hsnd]
    exact ⟨h1, h2⟩

theorem mutantMutated_length (seed : List Char) (n2 iStart iPos iSub : ℕ) :
    (mutantMutated seed n2 iStart iPos iSub).length
      = (mutantStem seed n2 iStart).length := by
  rw [mutantMutated]
  rcases hget : (mutantStem seed n2 iStart).get?
      (iPos % Nat.max 1 (mutantStem seed n2 iStart).length) with _ | ch
  · simp
  · obtain ⟨hlt, -⟩ := List.get?_eq_some.mp hget
    by_cases hv : isVowel ch
    · simp only [hv, if_true, List.length_append, List.length_take,
        List.length_drop, List.length_cons, List.length_nil]
      omega
    · simp only [hv, Bool.false_eq_true, if_false, List.length_append,
        List.length_take, List.length_drop]
      have hone := (similar_entries ch).1 _
        (pick_mem ['b'] ((SIMILAR_CONSONANTS ch).getD C_ONSETS) iSub
          (similar_entries ch).2)
      rw [hone]
      omega

theorem generateMutant_decomp (seeds : List (List Char))
    (iSeed n2 iStart iPos iSub iEnd : ℕ) :
    ∃ (seed e : List Char), e ∈ ENDINGS
      ∧ generateMutant seeds iSeed n2 iStart iPos iSub iEnd
          = mutantMutated seed n2 iStart iPos iSub ++ e
      ∧ (mutantMutated seed n2 iStart iPos iSub).length
          = (mutantStem seed n2 iStart).length :=
  ⟨_, pick ['a'] ENDINGS iEnd, pick_mem _ _ _ (by decide), rfl,
   mutantMutated_length _ n2 iStart iPos iSub⟩

/-! ## Claim theorems: classifier, fusion, cheapest price, hash -/

/-- C1: `classify` returns FREE exactly when the result is available
(regardless of price), BUY exactly when unavailable with a cheapest price at
most the budget, TAKEN exactly when unavailable otherwise, and never any
status outside FREE, BUY, TAKEN; a result with `available := false` and
price 12.00 classifies as BUY under budget 15 and as TAKEN under budget 5. -/
theorem classify_totality (r : DomainResult) (maxP : ℚ) :
    ((classify r maxP).status = .FREE ↔ r.available = true)
    ∧ ((classify r maxP).status = .BUY ↔
        (r.available = false ∧ ∃ p, r.priceUSD = some p ∧ p ≤ maxP))
    ∧ ((classify r maxP).status = .TAKEN ↔
        (r.available = false ∧ ∀ p, r.priceUSD = some p → maxP < p))
    ∧ ((classify r maxP).status = .FREE ∨ (classify r maxP).status = .BUY
        ∨ (classify r maxP).status = .TAKEN)
    ∧ (classify r maxP).status ≠ .ERROR
    ∧ (classify { r with available := false, priceUSD := some 12 } 15).status = .BUY
    ∧ (classify { r with available := false, priceUSD := some 12 } 5).status = .TAKEN := by
  obtain ⟨n, t, d, avail, price, mk⟩ := r
  refine ⟨?_, ?_, ?_, ?_, ?_, ?_, ?_⟩
  · -- FREE exactly when available
    cases avail
    · rcases price with _ | p
      · simp [classify]
      · by_cases hp : p ≤ maxP <;> simp [classify, hp]
    · simp [classify]
  · -- BUY exactly when unavailable with affordable cheapest price
    cases avail
    · rcases price with _ | p
      · simp [classify]
      · by_cases hp : p ≤ maxP <;> simp [classify, hp]
    · simp [classify]
  · -- TAKEN exactly when unavailable otherwise
    cases avail
    · rcases price with _ | p
      · simp [classify]
      · by_cases hp : p ≤ maxP
        · simp [classify, hp, not_lt]
        · simp [classify, hp, not_lt]
          exact not_le.mp hp
    · simp [classify]
  · -- totality: one of the three statuses
    cases avail
    · rcases price with _ | p
      · simp [classify]
      · by_cases hp : p ≤ maxP <;> simp [classify, hp]
    · simp [classify]
  · -- never ERROR
    cases avail
    · rcases price with _ | p
      · simp [classify]
      · by_cases hp : p ≤ maxP <;> simp [classify, hp]
    · simp [classify]
  · norm_num [classify]
  · norm_num [classify]

/-- C2: the availability client asserts `available = true` exactly when the
registration flag is literally `false` and both auxiliary registry flags are
clear; any other combination (including an unknown registration flag) yields
`available = false`. -/
theorem toDomainResult_available_iff (r : IDSResult) :
    (toDomainResult r).available = true ↔
      (r.isRegistered = some false ∧ r.czdap = false ∧ r.securityTrails = false) := by
  obtain ⟨reg, lbl, t, cz, st, ms, ec⟩ := r
  cases cz <;> cases st <;> rcases reg with _ | b <;> simp [toDomainResult]

/-- C8: the cheapest price is the minimum over the quotes carrying a numeric
price (taking `price`, falling back to `min_price`, in minor units),
converted to major units by division by 100, and the cheapest marketplace is
the name of a quote attaining that minimum; when no quote carries a numeric
price, both the cheapest price and the cheapest marketplace are `none`. -/
theorem findCheapest_spec (ms : List IDSMarket) :
    (((findCheapest ms).usd = none ∧ (findCheapest ms).market = none) ↔
       ∀ m ∈ ms, marketCents m = none)
    ∧ (∀ p, (findCheapest ms).usd = some p →
        (p ∈ marketDollars ms ∧ (∀ q ∈ marketDollars ms, p ≤ q))
        ∧ ∃ m ∈ ms, marketCents m = some (100 * p)
            ∧ (findCheapest ms).market = some m.market) := by
  obtain ⟨h1, h2, h3⟩ := foldl_findCheapestStep_spec ms { usd := none, market := none }
  constructor
  · constructor
    · intro h
      exact (h1.mp h.1).2
    · intro h
      have husd : (findCheapest ms).usd = none := h1.mpr ⟨rfl, h⟩
      exact ⟨husd, h2 husd⟩
  · intro p hp
    obtain ⟨hloc, _, hmin⟩ := h3 p hp
    have hp' : ∃ m ∈ ms, marketCents m = some (100 * p)
        ∧ (findCheapest ms).market = some m.market := by
      rcases hloc with ⟨h, _⟩ | h
      · exact absurd h (by simp)
      · exact h
    refine ⟨⟨?_, hmin⟩, hp'⟩
    obtain ⟨m, hm, hcm, _⟩ := hp'
    have : (100 : ℚ) * p / 100 = p := by field_simp
    exact List.mem_filterMap.mpr ⟨m, hm, by rw [hcm]; simp [this]⟩

/-- Concrete instance for C8: two quotes, one priced only through
`min_price` at 500 cents, one priced at 1200 cents; the cheapest is 5 USD at
the first quote's marketplace. -/
theorem findCheapest_spec_witness :
    (((5 : ℚ) ∈ marketDollars
        [⟨"alpha", none, some 500, "bn"⟩, ⟨"beta", some 1200, none, "bn"⟩]
      ∧ (∀ q ∈ marketDollars
            [⟨"alpha", none, some 500, "bn"⟩, ⟨"beta", some 1200, none, "bn"⟩],
          (5 : ℚ) ≤ q))
      ∧ ∃ m ∈ [IDSMarket.mk "alpha" none (some 500) "bn",
               IDSMarket.mk "beta" (some 1200) none "bn"],
          marketCents m = some (100 * 5)
          ∧ (findCheapest [⟨"alpha", none, some 500, "bn"⟩,
                           ⟨"beta", some 1200, none, "bn"⟩]).market = some m.market) :=
  (findCheapest_spec _).2 5 (by norm_num [findCheapest, findCheapestStep, marketCents,
    Option.orElse])

/-- C10: the imperative-loop revision of `idsHashCode` (src/util.ts) and the
reduce-based revision (src/domain/ids.ts) return the same hash string for
every name and seed, and on a nonempty name the final accumulator is a
32-bit signed integer, because `r &= r` and `| 0` perform the same Int32
coercion at every step. -/
theorem idsHashCode_revisions_agree (name : List Char) (seed : ℤ) :
    idsHashCodeLoop name seed = idsHashCodeReduce name seed
    ∧ (name ≠ [] →
        -2 ^ 31 ≤ name.foldl (fun r ch => andSelf (shiftLeft5 r - r + ch.toNat)) seed ∧
        name.foldl (fun r ch => andSelf (shiftLeft5 r - r + ch.toNat)) seed < 2 ^ 31) :=
  ⟨rfl, hashLoop_acc_bounds name seed⟩

/-- Concrete instance for C10 on the name "ab" with the default seed 42. -/
theorem idsHashCode_revisions_agree_witness :
    idsHashCodeLoop ['a', 'b'] 42 = idsHashCodeReduce ['a', 'b'] 42
    ∧ (-2 ^ 31 ≤ ['a', 'b'].foldl (fun r ch => andSelf (shiftLeft5 r - r + ch.toNat)) 42 ∧
        ['a', 'b'].foldl (fun r ch => andSelf (shiftLeft5 r - r + ch.toNat)) 42 < 2 ^ 31) :=
  ⟨(idsHashCode_revisions_agree ['a', 'b'] 42).1,
   (idsHashCode_revisions_agree ['a', 'b'] 42).2 (by simp)⟩

/-- The quality filter rejects a word within its length bounds exactly when
one of the declarative phonotactic conditions holds. -/
theorem isQuality_false_iff (w : List Char) (mn mx : ℕ)
    (h1 : mn ≤ w.length) (h2 : w.length ≤ mx) :
    isQuality w mn mx = false ↔
      (∀ c ∈ w, isVowel c = false)
      ∨ (∃ b ∈ BAD_STARTS, listStartsWith w b = true)
      ∨ hasTriple sameTriple w = true
      ∨ hasTriple consTriple w = true
      ∨ hasTriple vowelTriple w = true
      ∨ (1 < w.length ∧
          (countTransitions w : ℚ) / ((w.length : ℚ) - 1) < 2 / 5) := by
  rw [isQuality, if_neg (by omega : ¬(w.length < mn ∨ mx < w.length))]
  by_cases hv : w.any isVowel = false
  · rw [if_pos hv]
    refine ⟨fun _ => Or.inl (fun c hc => ?_), fun _ => rfl⟩
    have := (List.any_eq_false.mp hv) c hc
    simpa using this
  · rw [if_neg hv]
    have hvw : ¬ (∀ c ∈ w, isVowel c = false) := by
      intro hall
      exact hv (List.any_eq_false.mpr (fun c hc => by simp [hall c hc]))
    by_cases hb : BAD_STARTS.any (fun b => listStartsWith w b) = true
    · rw [if_pos hb]
      exact ⟨fun _ => Or.inr (Or.inl (List.any_eq_true.mp hb)), fun _ => rfl⟩
    · rw [if_neg hb]
      have hbw : ¬ ∃ b ∈ BAD_STARTS, listStartsWith w b = true := by
        simpa [List.any_eq_true] using hb
      by_cases ht : (hasTriple sameTriple w
          || (hasTriple consTriple w || hasTriple vowelTriple w)) = true
      · rw [if_pos (by rw [scan_failed_iff_triples]; exact ht)]
        simp only [Bool.or_eq_true] at ht
        refine ⟨fun _ => ?_, fun _ => rfl⟩
        rcases ht with h | h | h
        · exact Or.inr (Or.inr (Or.inl h))
        · exact Or.inr (Or.inr (Or.inr (Or.inl h)))
        · exact Or.inr (Or.inr (Or.inr (Or.inr (Or.inl h))))
      · rw [if_neg (by rw [scan_failed_iff_triples]; exact ht)]
        have hnf : (w.foldl scanChar INITIAL_STATE).failed = false := by
          rw [scan_failed_iff_triples]
          exact Bool.not_eq_true _ |>.mp ht
        have htrans : (w.foldl scanChar INITIAL_STATE).transitions
            = countTransitions w := by
          have h := foldl_scanChar_transitions w INITIAL_STATE rfl hnf
          rw [h]
          show 0 + countTransFrom none w = countTransitions w
          rw [Nat.zero_add, countTransFrom_none]
        rw [htrans]
        simp only [Bool.or_eq_true, not_or, Bool.not_eq_true] at ht
        obtain ⟨hts, htc, htv⟩ := ht
        by_cases hr : 1 < w.length ∧
            (countTransitions w : ℚ) / ((w.length : ℚ) - 1) < minTransitionRatio
        · rw [if_pos hr]
          refine ⟨fun _ => Or.inr (Or.inr (Or.inr (Or.inr (Or.inr ?_)))), fun _ => rfl⟩
          simpa [minTransitionRatio] using hr
        · rw [if_neg hr]
          refine ⟨fun h => absurd h (by simp), ?_⟩
          rintro (h | h | h | h | h | h)
          · exact absurd h hvw
          · exact absurd h hbw
          · exact absurd h (by simp [hts])
          · exact absurd h (by simp [htc])
          · exact absurd h (by simp [htv])
          · exact absurd h (by simpa [minTransitionRatio] using hr)

/-- C3: on any word within the length bounds, `isQuality` (a pure total
function) rejects exactly when the word contains no vowel, or starts with a
blacklisted onset, or contains a run of three identical characters, three
consonants, or three vowels, or (for words of length greater than one) its
class-transition ratio is below 0.4; in particular it rejects "aaa" and
"xyzz" and accepts "palo" and "calvo". -/
theorem isQuality_characterization :
    (∀ (w : List Char) (mn mx : ℕ), mn ≤ w.length → w.length ≤ mx →
      (isQuality w mn mx = false ↔
        (∀ c ∈ w, isVowel c = false)
        ∨ (∃ b ∈ BAD_STARTS, listStartsWith w b = true)
        ∨ hasTriple sameTriple w = true
        ∨ hasTriple consTriple w = true
        ∨ hasTriple vowelTriple w = true
        ∨ (1 < w.length ∧
            (countTransitions w : ℚ) / ((w.length : ℚ) - 1) < 2 / 5)))
    ∧ isQuality ['a', 'a', 'a'] 1 10 = false
    ∧ isQuality ['x', 'y', 'z', 'z'] 1 10 = false
    ∧ isQuality ['p', 'a', 'l', 'o'] 1 10 = true
    ∧ isQuality ['c', 'a', 'l', 'v', 'o'] 1 10 = true := by
  refine ⟨isQuality_false_iff, by decide, by decide, ?_, ?_⟩
  · cases hq : isQuality ['p', 'a', 'l', 'o'] 1 10
    · exfalso
      rcases (isQuality_false_iff ['p', 'a', 'l', 'o'] 1 10 (by decide)
          (by decide)).mp hq with h | h | h | h | h | h
      · exact absurd (h 'a' (by decide)) (by decide)
      · exact absurd h (by decide)
      · exact absurd h (by decide)
      · exact absurd h (by decide)
      · exact absurd h (by decide)
      · have hct : countTransitions ['p', 'a', 'l', 'o'] = 3 := by decide
        rw [hct] at h
        norm_num at h
    · rfl
  · cases hq : isQuality ['c', 'a', 'l', 'v', 'o'] 1 10
    · exfalso
      rcases (isQuality_false_iff ['c', 'a', 'l', 'v', 'o'] 1 10 (by decide)
          (by decide)).mp hq with h | h | h | h | h | h
      · exact absurd (h 'a' (by decide)) (by decide)
      · exact absurd h (by decide)
      · exact absurd h (by decide)
      · exact absurd h (by decide)
      · exact absurd h (by decide)
      · have hct : countTransitions ['c', 'a', 'l', 'v', 'o'] = 3 := by decide
        rw [hct] at h
        norm_num at h
    · rfl

/-- Concrete instance for C3: the characterization evaluated at "palo" with
bounds 1 and 10. -/
theorem isQuality_characterization_witness :
    isQuality ['p', 'a', 'l', 'o'] 1 10 = false ↔
      (∀ c ∈ ['p', 'a', 'l', 'o'], isVowel c = false)
      ∨ (∃ b ∈ BAD_STARTS, listStartsWith ['p', 'a', 'l', 'o'] b = true)
      ∨ hasTriple sameTriple ['p', 'a', 'l', 'o'] = true
      ∨ hasTriple consTriple ['p', 'a', 'l', 'o'] = true
      ∨ hasTriple vowelTriple ['p', 'a', 'l', 'o'] = true
      ∨ (1 < (['p', 'a', 'l', 'o'] : List Char).length ∧
          (countTransitions ['p', 'a', 'l', 'o'] : ℚ)
            / (((['p', 'a', 'l', 'o'] : List Char).length : ℚ) - 1) < 2 / 5) :=
  isQuality_characterization.1 ['p', 'a', 'l', 'o'] 1 10 (by decide) (by decide)

/-- C4: for every count, bounds, seed list, prior seen set and strategy
oracle, `generateCandidates` returns at most `count` pairwise-distinct
words, each within the length bounds and passing the quality filter, none
equal to a trimmed lowercased seed word and none in the caller's seen set
(hence none returned by an earlier call that threaded the same seen set);
the result depends only on the first `count * 50` attempt draws, and a short
result is an ordinary return value. -/
theorem generateCandidates_contract (count mn mx : ℕ)
    (seedWords seen₀ : List (List Char)) (produce : ℕ → List Char) :
    (generateCandidates count mn mx seedWords seen₀ produce).1.length ≤ count
    ∧ (generateCandidates count mn mx seedWords seen₀ produce).1.Nodup
    ∧ (∀ w ∈ (generateCandidates count mn mx seedWords seen₀ produce).1,
        mn ≤ w.length ∧ w.length ≤ mx ∧ isQuality w mn mx = true
        ∧ w ∉ normalizeSeeds seedWords ∧ w ∉ seen₀)
    ∧ (∀ produce' : ℕ → List Char,
        (∀ i < count * 50, produce i = produce' i) →
        generateCandidates count mn mx seedWords seen₀ produce
          = generateCandidates count mn mx seedWords seen₀ produce') := by
  obtain ⟨hA, hB, hC, _, _⟩ :=
    genLoop_invariant count mn mx (normalizeSeeds seedWords) produce
      (count * 50) 0 [] seen₀
  refine ⟨hA (by simp), hB List.nodup_nil (by simp), ?_, ?_⟩
  · intro w hw
    rcases hC (by simp) w hw with hw' | ⟨hq, hsd, hsn⟩
    · exact absurd hw' (List.not_mem_nil w)
    · obtain ⟨hl1, hl2⟩ := isQuality_length w mn mx hq
      exact ⟨hl1, hl2, hq, hsd, hsn⟩
  · intro produce' hagree
    exact genLoop_oracle count mn mx (normalizeSeeds seedWords) (count * 50) 0 [] seen₀
      produce produce' (fun i h1 h2 => hagree i (by omega))

/-- Concrete instance for C4: with a single requested candidate and a
constant strategy oracle, the result only depends on the first 50 draws. -/
theorem generateCandidates_contract_witness :
    generateCandidates 1 1 5 [] [] (fun _ => ['p', 'a', 'l', 'o'])
      = generateCandidates 1 1 5 [] []
          (fun i => if i < 50 then ['p', 'a', 'l', 'o'] else []) :=
  (generateCandidates_contract 1 1 5 [] [] (fun _ => ['p', 'a', 'l', 'o'])).2.2.2
    (fun i => if i < 50 then ['p', 'a', 'l', 'o'] else [])
    (fun i hi => by simp only; rw [if_pos (by omega : i < 50)])

/-- C5: the accumulated FREE/BUY hits never exceed the requested target:
each round's batch accumulation truncates to the remaining quota (stopping
mid-batch once the target is reached), and the terminal sorted output of
`hunt` never has more entries than the requested count. -/
theorem hunt_hits_bounded :
    (∀ (remaining : ℕ) (answers : List (Except Unit (List DomainInfo)))
        (acc : List DomainRow), acc.length ≤ remaining →
        (processHuntBatches remaining answers acc).1.length ≤ remaining)
    ∧ (∀ (count : ℕ) (genO : ℕ → List (List Char))
        (ansO : ℕ → ℕ → Except Unit (List DomainInfo)),
        (hunt count genO ansO).length ≤ count) := by
  refine ⟨fun remaining answers acc h => processHuntBatches_le remaining answers acc h,
    fun count genO ansO => ?_⟩
  rw [hunt, sortDomainRows_length]
  exact runRound_le count genO ansO MAX_ROUNDS 1 [] (by simp)

/-- Concrete instance for C5: one successful batch with three FREE records
against a remaining quota of two. -/
theorem hunt_hits_bounded_witness :
    (processHuntBatches 2
        [Except.ok [⟨"a", "com", true, false, none, none⟩,
                    ⟨"b", "com", true, false, none, none⟩,
                    ⟨"c", "com", true, false, none, none⟩]]
        []).1.length ≤ 2 :=
  hunt_hits_bounded.1 2
    [Except.ok [⟨"a", "com", true, false, none, none⟩,
                ⟨"b", "com", true, false, none, none⟩,
                ⟨"c", "com", true, false, none, none⟩]]
    [] (by simp)

/-- C6: the hunt loop is a total function; a request for zero domains
returns the empty list for every pair of oracles (so no generation or
network query can influence it), a round that generates zero candidates
ends the hunt with the partial result, and the result only depends on the
oracles' answers for rounds 1..100 — beyond the round cap no query is
consulted. -/
theorem hunt_terminates :
    (∀ (genO : ℕ → List (List Char))
        (ansO : ℕ → ℕ → Except Unit (List DomainInfo)),
        hunt 0 genO ansO = [])
    ∧ (∀ (count : ℕ) (genO : ℕ → List (List Char))
        (ansO : ℕ → ℕ → Except Unit (List DomainInfo)),
        0 < count → genO 1 = [] → hunt count genO ansO = [])
    ∧ (∀ (count : ℕ) (genO genO' : ℕ → List (List Char))
        (ansO ansO' : ℕ → ℕ → Except Unit (List DomainInfo)),
        (∀ r, 1 ≤ r → r ≤ MAX_ROUNDS → genO r = genO' r) →
        (∀ r b, 1 ≤ r → r ≤ MAX_ROUNDS → ansO r b = ansO' r b) →
        hunt count genO ansO = hunt count genO' ansO') := by
  refine ⟨fun genO ansO => rfl, ?_, ?_⟩
  · intro count genO ansO hpos hstall
    rw [hunt, show MAX_ROUNDS = 99 + 1 from rfl,
        runRound_stall count genO ansO 99 1 [] (by simp; omega) hstall]
    rfl
  · intro count genO genO' ansO ansO' hgen hans
    rw [hunt, hunt,
        runRound_oracle count MAX_ROUNDS 1 [] genO genO' ansO ansO' le_rfl
          (by rw [MAX_ROUNDS]) hgen hans]

/-- Concrete instance for C6: a hunt for five domains whose generator stalls
immediately returns the empty list, and equal oracles give equal hunts. -/
theorem hunt_terminates_witness :
    hunt 5 (fun _ => []) (fun _ _ => Except.error ()) = []
    ∧ hunt 3 (fun _ => [['a']]) (fun _ _ => Except.error ())
        = hunt 3 (fun _ => [['a']]) (fun _ _ => Except.error ()) :=
  ⟨hunt_terminates.2.1 5 (fun _ => []) (fun _ _ => Except.error ())
      (by omega) rfl,
   hunt_terminates.2.2 3 (fun _ => [['a']]) (fun _ => [['a']])
      (fun _ _ => Except.error ()) (fun _ _ => Except.error ())
      (fun r _ _ => rfl) (fun r b _ _ => rfl)⟩

/-- C7: a failed batch query contributes no records and does not stop the
round: processing a batch list whose query at some position fails gives
exactly the result of processing the same list with that batch removed, for
every accumulator and remaining quota. -/
theorem processHuntBatches_skip_failed (remaining : ℕ)
    (ans₁ ans₂ : List (Except Unit (List DomainInfo))) (acc : List DomainRow) :
    processHuntBatches remaining (ans₁ ++ Except.error () :: ans₂) acc
      = processHuntBatches remaining (ans₁ ++ ans₂) acc := by
  induction ans₁ generalizing acc with
  | nil =>
      by_cases hfull : remaining ≤ acc.length
      · cases ans₂ with
        | nil => simp only [List.nil_append, processHuntBatches, if_pos hfull,
            decide_eq_true hfull]
        | cons b rest => simp only [List.nil_append, processHuntBatches,
            if_pos hfull]
      · simp only [List.nil_append, processHuntBatches, if_neg hfull]
  | cons a ans₁ ih =>
      by_cases hfull : remaining ≤ acc.length
      · simp only [List.cons_append, processHuntBatches, if_pos hfull]
      · cases a with
        | ok infos =>
            simp only [List.cons_append, processHuntBatches, if_neg hfull]
            exact ih _
        | error e =>
            simp only [List.cons_append, processHuntBatches, if_neg hfull]
            exact ih acc

/-- C9 counterexample: in the src/unnamed/part_003 revision the CVCV
strategy post-hoc slices its composition to the maximum length. With draws
choosing three "ba" syllables and no coda the composition is "bababa"; with
max = 4 the returned string is its strict prefix "baba", not the
concatenation of the chosen components. -/
theorem p3_generateCVCV_truncates :
    p3_generateCVCV (7 / 10) (1 / 2) 0 (fun _ => 0) (fun _ => 0) (1 / 2) 0 4
      = ['b', 'a', 'b', 'a']
    ∧ p3_generateCVCV (7 / 10) (1 / 2) 0 (fun _ => 0) (fun _ => 0) (1 / 2) 0 1000
      = ['b', 'a', 'b', 'a', 'b', 'a']
    ∧ p3_generateCVCV (7 / 10) (1 / 2) 0 (fun _ => 0) (fun _ => 0) (1 / 2) 0 4
      ≠ p3_generateCVCV (7 / 10) (1 / 2) 0 (fun _ => 0) (fun _ => 0) (1 / 2) 0 1000 := by
  have h1 : p3_generateCVCV (7 / 10) (1 / 2) 0 (fun _ => 0) (fun _ => 0) (1 / 2) 0 4
      = ['b', 'a', 'b', 'a'] := by
    norm_num [p3_generateCVCV, pick, onset, C_ONSETS, V, CODAS, List.range_succ]
  have h2 : p3_generateCVCV (7 / 10) (1 / 2) 0 (fun _ => 0) (fun _ => 0) (1 / 2) 0 1000
      = ['b', 'a', 'b', 'a', 'b', 'a'] := by
    norm_num [p3_generateCVCV, pick, onset, C_ONSETS, V, CODAS, List.range_succ]
  exact ⟨h1, h2, by rw [h1, h2]; decide⟩

/-- C9 amended: in the current revision (src/generator.ts) every strategy
returns exactly the concatenation of its chosen components — onset, vowels,
syllables, bridge, coda, ending, mutated stem — drawn from the phoneme
inventories, with no length parameter and no post-hoc slice; in the earlier
revision (src/unnamed/part_003) each strategy slices its composition to the
maximum length. -/
theorem strategies_compose_without_truncation :
    (∀ (rCount rOnset : ℚ) (iOnset iV0 : ℕ) (iC iV : ℕ → ℕ) (rCoda : ℚ) (iCoda : ℕ),
      ∃ (o : List Char) (v0 : Char) (sylls : List (List Char)) (coda : List Char),
        (o ∈ C_ONSETS ∨ o ∈ CC_ONSETS) ∧ v0 ∈ V
        ∧ (∀ s ∈ sylls, ∃ c ∈ C_ONSETS, ∃ v ∈ V, s = c ++ [v])
        ∧ (coda = [] ∨ ∃ cd ∈ CODAS, coda = [cd])
        ∧ generateCVCV rCount rOnset iOnset iV0 iC iV rCoda iCoda
            = (o ++ [v0]) ++ sylls.join ++ coda)
    ∧ (∀ (rOnset : ℚ) (iOnset iV1 iBridge iV2 : ℕ) (r : ℚ) (iTailC iTailV iSoft : ℕ),
      ∃ (o : List Char) (v1 : Char) (br : List Char) (v2 : Char) (tail : List Char),
        (o ∈ C_ONSETS ∨ o ∈ CC_ONSETS) ∧ v1 ∈ V ∧ br ∈ C_BRIDGES ∧ v2 ∈ V
        ∧ ((∃ c ∈ C_ONSETS, ∃ v ∈ V, tail = c ++ [v])
            ∨ (∃ sc ∈ SOFT_CODAS, tail = [sc]) ∨ tail = [])
        ∧ generateBridged rOnset iOnset iV1 iBridge iV2 r iTailC iTailV iSoft
            = (o ++ [v1] ++ br ++ [v2]) ++ tail)
    ∧ (∀ (iEnding : ℕ) (rOnset : ℚ) (iOnset iV0 : ℕ) (rBridge : ℚ) (iB iBV : ℕ),
      ∃ (o : List Char) (v0 : Char) (bridge : List Char) (e : List Char),
        (o ∈ C_ONSETS ∨ o ∈ CC_ONSETS) ∧ v0 ∈ V
        ∧ (bridge = [] ∨ ∃ sb ∈ SINGLE_BRIDGES, ∃ v ∈ V, bridge = sb ++ [v])
        ∧ e ∈ ENDINGS
        ∧ generateWithEnding iEnding rOnset iOnset iV0 rBridge iB iBV
            = (o ++ [v0]) ++ bridge ++ e)
    ∧ (∀ (rCount : ℚ) (iV0 : ℕ) (iC iV : ℕ → ℕ) (r2 : ℚ) (iB iBV iCoda : ℕ),
      ∃ (v0 : Char) (sylls : List (List Char)) (tail : List Char),
        v0 ∈ V
        ∧ (∀ s ∈ sylls, ∃ c ∈ C_ONSETS, ∃ v ∈ V, s = c ++ [v])
        ∧ ((∃ sb ∈ SINGLE_BRIDGES, ∃ v ∈ V, tail = sb ++ [v])
            ∨ (∃ cd ∈ CODAS, tail = [cd]) ∨ tail = [])
        ∧ generateVowelLed rCount iV0 iC iV r2 iB iBV iCoda
            = [v0] ++ sylls.join ++ tail)
    ∧ (∀ (seeds : List (List Char)) (iSeed n2 iStart iPos iSub iEnd : ℕ),
      ∃ (seed e : List Char), e ∈ ENDINGS
        ∧ generateMutant seeds iSeed n2 iStart iPos iSub iEnd
            = mutantMutated seed n2 iStart iPos iSub ++ e
        ∧ (mutantMutated seed n2 iStart iPos iSub).length
            = (mutantStem seed n2 iStart).length) :=
  ⟨generateCVCV_decomp, generateBridged_decomp, generateWithEnding_decomp,
   generateVowelLed_decomp, generateMutant_decomp⟩

end Namio
